import Mathlib

/-!
Shallow embedding of the text-metrics engine of the Analysis-poems
repository (src/text_utils.py and the aggregation part of src/main.py).

Strings are modelled as `List Char`; Python floats are modelled as `ℚ`;
Python `round(x, d)` is modelled with Mathlib's `round` (round-half
behaviour differs from the float banker rounding only on exact midpoints,
which no statement below depends on).

The Python regular-expression character classes are modelled for the
character repertoire the program is specified for (ASCII plus the basic
Cyrillic letters): `\w` is letters, digits and the underscore, `\s` is
the ASCII whitespace set.
-/

/-- Python's `\s` class on the ASCII range: space, tab, newline,
carriage return, vertical tab, form feed. -/
def pyIsSpace (c : Char) : Bool :=
  c = ' ' || c = '\t' || c = '\n' || c = '\r' ||
  c = Char.ofNat 11 || c = Char.ofNat 12

/-- Basic Cyrillic letters: А..я (U+0410..U+044F) plus Ё (U+0401) and
ё (U+0451). -/
def isCyrillicLetter (c : Char) : Bool :=
  (1040 ≤ c.toNat && c.toNat ≤ 1103) || c.toNat = 1025 || c.toNat = 1105

/-- Python's `\w` class (Unicode word character) on the modelled
repertoire: ASCII letters and digits, the underscore, and Cyrillic
letters. -/
def pyIsWordChar (c : Char) : Bool :=
  c.isAlphanum || c = '_' || isCyrillicLetter c

/-- Python's `str.lower` on the modelled repertoire: ASCII A–Z map down
by 32, Cyrillic А–Я (U+0410–U+042F) map down by adding 32, Ё maps to ё;
everything else is fixed. -/
def pyToLower (c : Char) : Char :=
  if 65 ≤ c.toNat ∧ c.toNat ≤ 90 then Char.ofNat (c.toNat + 32)
  else if 1040 ≤ c.toNat ∧ c.toNat ≤ 1071 then Char.ofNat (c.toNat + 32)
  else if c.toNat = 1025 then Char.ofNat 1105
  else c

/-- One step of `re.sub(r'[^\w\s]', ' ', text)`: a character that is
neither a word character nor whitespace becomes a single space. -/
def replaceNonWord (c : Char) : Char :=
  if ¬ pyIsWordChar c ∧ ¬ pyIsSpace c then ' ' else c

/-- `re.sub(r'\s+', ' ', text)`: every maximal run of whitespace becomes
one space.  The boolean argument records whether the previous character
was whitespace. -/
def collapseSpacesAux : List Char → Bool → List Char
  | [], _ => []
  | c :: rest, prevSpace =>
    if pyIsSpace c then
      if prevSpace then collapseSpacesAux rest true
      else ' ' :: collapseSpacesAux rest true
    else c :: collapseSpacesAux rest false

def collapseSpaces (s : List Char) : List Char :=
  collapseSpacesAux s false

/-- Python `str.strip()`: drop leading and trailing whitespace. -/
def pyStrip (s : List Char) : List Char :=
  ((s.dropWhile pyIsSpace).reverse.dropWhile pyIsSpace).reverse

/-- Python `str.split()` (no separator): split on runs of whitespace,
dropping empty fragments.  The accumulator holds the current word,
reversed. -/
def pySplitAux : List Char → List Char → List (List Char)
  | [], acc => if acc = [] then [] else [acc.reverse]
  | c :: rest, acc =>
    if pyIsSpace c then
      if acc = [] then pySplitAux rest []
      else acc.reverse :: pySplitAux rest []
    else pySplitAux rest (c :: acc)

def pySplit (s : List Char) : List (List Char) :=
  pySplitAux s []

/-- `text_utils.preprocess_text`: lowercase, replace characters outside
`\w` and `\s` by a space, collapse whitespace runs, strip, split. -/
def preprocess_text (text : List Char) : List (List Char) :=
  if text = [] then []
  else
    let t1 := text.map pyToLower
    let t2 := t1.map replaceNonWord
    let t3 := collapseSpaces t2
    pySplit (pyStrip t3)

/-- `text_utils.count_words`. -/
def count_words (text : List Char) : ℕ :=
  (preprocess_text text).length

/-- `text_utils.count_unique_words`: `len(set(words))`, the number of
distinct tokens. -/
def count_unique_words (text : List Char) : ℕ :=
  (preprocess_text text).dedup.length

/-- Python `round(q, d)` on the rational model: round `q·10^d` to the
nearest integer and scale back. -/
def roundTo (q : ℚ) (d : ℕ) : ℚ :=
  ((round (q * 10 ^ d) : ℤ) : ℚ) / 10 ^ d

/-- `text_utils.calculate_ttr`. -/
def calculate_ttr (text : List Char) : ℚ :=
  let total := count_words text
  let uniq := count_unique_words text
  if total = 0 then 0
  else roundTo ((uniq : ℚ) / (total : ℚ)) 4

/-- Python `text.split('\n')`. -/
def splitNl : List Char → List Char → List (List Char)
  | [], acc => [acc.reverse]
  | c :: rest, acc =>
    if c = '\n' then acc.reverse :: splitNl rest []
    else splitNl rest (c :: acc)

/-- `text_utils.count_lines`: number of lines whose strip is non-empty. -/
def count_lines (text : List Char) : ℕ :=
  if text = [] then 0
  else (((splitNl text []).map pyStrip).filter (· ≠ [])).length

/-- `text_utils.average_word_length`. -/
def average_word_length (text : List Char) : ℚ :=
  let words := preprocess_text text
  if words = [] then 0
  else roundTo ((words.map List.length).sum / (words.length : ℚ)) 2

/-- Python `max(words, key=len)`: left-to-right scan keeping the first
maximal element. -/
def pyMaxBy {α : Type} (f : α → ℕ) : α → List α → α
  | cur, [] => cur
  | cur, x :: rest => if f x > f cur then pyMaxBy f x rest else pyMaxBy f cur rest

/-- `text_utils.find_longest_word`. -/
def find_longest_word (text : List Char) : List Char :=
  match preprocess_text text with
  | [] => []
  | w :: ws => pyMaxBy List.length w ws

/-- `text_utils.calculate_lexical_density`: fraction of tokens longer
than 3 characters. -/
def calculate_lexical_density (text : List Char) : ℚ :=
  let words := preprocess_text text
  if words = [] then 0
  else roundTo (((words.filter (fun w => w.length > 3)).length : ℚ) / (words.length : ℚ)) 4

/-- The distinct elements of a list in first-encountered order: the key
order of a Python `Counter` built by a left-to-right scan.  `seen`
accumulates the elements already emitted. -/
def firstOccAux {α : Type} [DecidableEq α] : List α → List α → List α
  | [], _ => []
  | w :: rest, seen =>
    if w ∈ seen then firstOccAux rest seen
    else w :: firstOccAux rest (w :: seen)

def firstOcc {α : Type} [DecidableEq α] (l : List α) : List α :=
  firstOccAux l []

/-- Position of the first occurrence of `x` in `u` (the rank used to
express first-encountered tie-breaking). -/
def rankIn {α : Type} [DecidableEq α] : List α → α → ℕ
  | [], _ => 0
  | a :: rest, x => if a = x then 0 else rankIn rest x + 1

/-- The `(token, frequency)` pairs of `Counter(words)` in insertion
order. -/
def counterPairs (words : List (List Char)) : List (List Char × ℕ) :=
  (firstOcc words).map (fun w => (w, words.count w))

/-- `Counter.most_common`: a stable sort by descending count, modelled
by insertion sort with the total preorder `b.2 ≤ a.2`. -/
def mostCommonSort (pairs : List (List Char × ℕ)) : List (List Char × ℕ) :=
  List.insertionSort (fun a b => b.2 ≤ a.2) pairs

/-- `text_utils.get_most_common_words`. -/
def get_most_common_words (text : List Char) (n : ℕ) : List (List Char × ℕ) :=
  let words := preprocess_text text
  if words = [] then []
  else (mostCommonSort (counterPairs words)).take n

def isSentEnd (c : Char) : Bool :=
  c = '.' || c = '!' || c = '?'

/-- `re.split(r'[.!?]+', text)`: fragments between maximal runs of
sentence-ending characters, keeping empty boundary fragments.  `acc` is
the current fragment reversed, `inSep` records whether the previous
character was a sentence ender. -/
def splitRunsAux : List Char → List Char → Bool → List (List Char)
  | [], acc, _ => [acc.reverse]
  | c :: rest, acc, inSep =>
    if isSentEnd c then
      if inSep then splitRunsAux rest acc true
      else acc.reverse :: splitRunsAux rest [] true
    else splitRunsAux rest (c :: acc) false

/-- `text_utils.calculate_sentence_count`. -/
def calculate_sentence_count (text : List Char) : ℕ :=
  if text = [] then 0
  else (((splitRunsAux text [] false).map pyStrip).filter (· ≠ [])).length

/-- The dictionary returned by `text_utils.analyze_text_readability`:
the two optional fields are absent on the early-exit branch. -/
structure Readability where
  readability_score : ℚ
  words_per_sentence : Option ℚ
  sentences : Option ℕ
deriving DecidableEq, Repr

/-- `text_utils.analyze_text_readability`. -/
def analyze_text_readability (text : List Char) : Readability :=
  if text = [] then ⟨0, none, none⟩
  else
    let words := preprocess_text text
    let sentences := calculate_sentence_count text
    if words = [] ∨ sentences = 0 then ⟨0, none, none⟩
    else
      let wps : ℚ := (words.length : ℚ) / (sentences : ℚ)
      let score : ℚ := max 0 (min 100 (100 - (wps - 10) * 2))
      ⟨roundTo score 2, some (roundTo wps 2), some sentences⟩

/-- The fields of a per-document result that `generate_report`
aggregates, read with `.get(key, 0)` defaults. -/
structure MetricRecord where
  filename : List Char
  word_count : ℕ
  ttr : ℚ
  avg_word_length : ℚ
deriving DecidableEq, Repr

/-- Python `max(results, key=f)`: a left-to-right scan that keeps the
first maximal element. -/
def pyMaxByQ {α : Type} (f : α → ℚ) : α → List α → α
  | cur, [] => cur
  | cur, x :: rest => if f x > f cur then pyMaxByQ f x rest else pyMaxByQ f cur rest

/-- Python `min(results, key=f)`: a left-to-right scan that keeps the
first minimal element. -/
def pyMinByQ {α : Type} (f : α → ℚ) : α → List α → α
  | cur, [] => cur
  | cur, x :: rest => if f x < f cur then pyMinByQ f x rest else pyMinByQ f cur rest

/-- `generate_report`: the record reported as the largest text
(`max(results, key=lambda x: x.get("word_count", 0))`). -/
def maxWordsRecord (r : MetricRecord) (rs : List MetricRecord) : MetricRecord :=
  pyMaxByQ (fun x => (x.word_count : ℚ)) r rs

/-- `generate_report`: the record reported as the shortest text. -/
def minWordsRecord (r : MetricRecord) (rs : List MetricRecord) : MetricRecord :=
  pyMinByQ (fun x => (x.word_count : ℚ)) r rs

/-- `generate_report`: the record with the highest TTR. -/
def maxTtrRecord (r : MetricRecord) (rs : List MetricRecord) : MetricRecord :=
  pyMaxByQ MetricRecord.ttr r rs

/-- `generate_report`: the record with the lowest TTR. -/
def minTtrRecord (r : MetricRecord) (rs : List MetricRecord) : MetricRecord :=
  pyMinByQ MetricRecord.ttr r rs

/-- `generate_report`: `avg_ttr = sum(ttr values) / len(results)`. -/
def avgTtr (results : List MetricRecord) : ℚ :=
  (results.map MetricRecord.ttr).sum / (results.length : ℚ)

/-- `generate_report`: mean of the per-document average word lengths. -/
def avgWordLen (results : List MetricRecord) : ℚ :=
  (results.map MetricRecord.avg_word_length).sum / (results.length : ℚ)

/-- The three diversity strings of `generate_report`
(высокое/среднее/низкое лексическое разнообразие). -/
inductive DiversityLabel
  | high
  | medium
  | low
deriving DecidableEq, Repr

/-- `generate_report` lines 248–253: the qualitative diversity label. -/
def diversity_label (avg : ℚ) : DiversityLabel :=
  if avg > 7 / 10 then DiversityLabel.high
  else if avg > 1 / 2 then DiversityLabel.medium
  else DiversityLabel.low

/-- The three word-length strings of `generate_report`
(длинные/средняя/короткие). -/
inductive WordLenLabel
  | long
  | medium
  | short
deriving DecidableEq, Repr

/-- `generate_report` lines 259–264: the qualitative word-length label. -/
def word_length_label (avg : ℚ) : WordLenLabel :=
  if avg > 6 then WordLenLabel.long
  else if avg > 4 then WordLenLabel.medium
  else WordLenLabel.short

/-- A Python value stored in a result dictionary: a string or a
number. -/
inductive Value where
  | vstr : List Char → Value
  | vnum : ℚ → Value
deriving DecidableEq, Repr

instance : Inhabited Value :=
  ⟨Value.vstr []⟩

/-- A Python dict, as an association list with distinct keys; insertion
order is the list order. -/
abbrev PyDict := List (List Char × Value)

/-- `d.get(k)`. -/
def dictGet (d : PyDict) (k : List Char) : Option Value :=
  (d.find? (fun kv => decide (kv.1 = k))).map Prod.snd

/-- `d[k] = v`: overwrite in place when the key exists, append
otherwise. -/
def dictSet (d : PyDict) (k : List Char) (v : Value) : PyDict :=
  if d.any (fun kv => decide (kv.1 = k)) then
    d.map (fun kv => if kv.1 = k then (k, v) else kv)
  else d ++ [(k, v)]

/-- Python `d.update(row)`: set every key of `row` in order. -/
def dictUpdate (d : PyDict) (row : PyDict) : PyDict :=
  row.foldl (fun acc kv => dictSet acc kv.1 kv.2) d

/-- The metadata mapping of `main.load_metadata`: filename value →
metadata row. -/
abbrev Metadata := List (Value × PyDict)

def metaLookup (m : Metadata) (k : Value) : Option PyDict :=
  (m.find? (fun kv => decide (kv.1 = k))).map Prod.snd

def filenameKey : List Char :=
  ("filename").toList

/-- `main.enrich_results_with_metadata`. -/
def enrich_results_with_metadata (results : List PyDict) (metadata : Metadata) :
    List PyDict :=
  if metadata = [] then results
  else results.map (fun r =>
    let filename := (dictGet r filenameKey).getD (Value.vstr [])
    match metaLookup metadata filename with
    | some row => dictUpdate r row
    | none => r)

/-- Python `" ".join(tokens)`. -/
def joinSpace : List (List Char) → List Char
  | [] => []
  | [w] => w
  | w :: w2 :: rest => w ++ ' ' :: joinSpace (w2 :: rest)

/-- The scenario input of the specification. -/
def scenarioText : List Char :=
  ("Hello hello WORLD! Hello?").toList

/-- A two-token input whose tokens are both short. -/
def abText : List Char :=
  ("a b").toList

/-- 20001 copies of the token "a", space-separated. -/
def cexTtrText : List Char :=
  joinSpace (List.replicate 20001 ['a'])

/-- An input containing an underscore. -/
def underscoreText : List Char :=
  ("a_b").toList

/-- A letter or digit as the specification sentence words it:
Unicode-aware, covering Cyrillic on the modelled repertoire. -/
def specIsLetterDigit (c : Char) : Bool :=
  c.isAlpha || c.isDigit || isCyrillicLetter c

/-- Modelled from the spec: the tokenizer exactly as the specification
sentence words it — every character that is not a letter, digit, or
whitespace (no underscore) becomes a space; then collapse, trim,
split. -/
def spec_tokenize (text : List Char) : List (List Char) :=
  if text = [] then []
  else pySplit (pyStrip (collapseSpaces ((text.map pyToLower).map
    (fun c => if ¬ specIsLetterDigit c ∧ ¬ pyIsSpace c then ' ' else c))))

/-- The amended wording: characters that are not a letter, digit,
underscore, or whitespace become a space. -/
def spec_tokenize_amended (text : List Char) : List (List Char) :=
  if text = [] then []
  else pySplit (pyStrip (collapseSpaces ((text.map pyToLower).map
    (fun c => if ¬ (specIsLetterDigit c || c = '_') ∧ ¬ pyIsSpace c then ' ' else c))))

/-- First record of the aggregation scenario: 100 words, TTR 0.8. -/
def recA : MetricRecord :=
  ⟨("doc1").toList, 100, 4 / 5, 5⟩

/-- Second record of the aggregation scenario: 20 words, TTR 0.3. -/
def recB : MetricRecord :=
  ⟨("doc2").toList, 20, 3 / 10, 4⟩

/-- A one-record result list for exercising metadata enrichment. -/
def W10res : List PyDict :=
  [[(filenameKey, Value.vstr (("a").toList)), (("x").toList, Value.vnum 1)]]

/-- A metadata table matching filename "a", overwriting key "x" and
adding key "y". -/
def W10meta : Metadata :=
  [(Value.vstr (("a").toList), [(("x").toList, Value.vnum 2), (("y").toList, Value.vstr [])])]

/-! ### Helper lemmas about rounding -/

theorem round_le_round {x y : ℚ} (h : x ≤ y) : round x ≤ round y := by
  rw [round_eq, round_eq]
  exact Int.floor_mono (by linarith)

theorem roundTo_nonneg {q : ℚ} {d : ℕ} (h : 0 ≤ q) : 0 ≤ roundTo q d := by
  unfold roundTo
  apply div_nonneg _ (by positivity)
  have h0 : round (0 : ℚ) ≤ round (q * 10 ^ d) := round_le_round (by positivity)
  rw [round_zero] at h0
  exact_mod_cast h0

theorem roundTo_le_nat {q : ℚ} {d m : ℕ} (h : q ≤ (m : ℚ)) : roundTo q d ≤ m := by
  unfold roundTo
  rw [div_le_iff₀ (by positivity)]
  have h1 : round (q * 10 ^ d) ≤ round (((m * 10 ^ d : ℕ) : ℚ)) := by
    apply round_le_round
    push_cast
    have hp : (0 : ℚ) < 10 ^ d := by positivity
    nlinarith
  rw [round_natCast] at h1
  exact_mod_cast h1

/-! ### Helper lemmas about characters -/

theorem char_toNat_ofNat {n : ℕ} (h : n < 55296) : (Char.ofNat n).toNat = n := by
  have hv : Nat.isValidChar n := Or.inl h
  simp [Char.ofNat, hv, Char.ofNatAux, Char.toNat]
  rfl

theorem pyToLower_idem (c : Char) : pyToLower (pyToLower c) = pyToLower c := by
  unfold pyToLower
  by_cases h1 : 65 ≤ c.toNat ∧ c.toNat ≤ 90
  · rw [if_pos h1]
    have ht : (Char.ofNat (c.toNat + 32)).toNat = c.toNat + 32 :=
      char_toNat_ofNat (by omega)
    rw [if_neg (by omega), if_neg (by omega), if_neg (by omega)]
  · rw [if_neg h1]
    by_cases h2 : 1040 ≤ c.toNat ∧ c.toNat ≤ 1071
    · rw [if_pos h2]
      have ht : (Char.ofNat (c.toNat + 32)).toNat = c.toNat + 32 :=
        char_toNat_ofNat (by omega)
      rw [if_neg (by omega), if_neg (by omega), if_neg (by omega)]
    · rw [if_neg h2]
      by_cases h3 : c.toNat = 1025
      · rw [if_pos h3]
        have ht : (Char.ofNat 1105).toNat = 1105 := char_toNat_ofNat (by omega)
        rw [if_neg (by omega), if_neg (by omega), if_neg (by omega)]
      · rw [if_neg h3, if_neg h1, if_neg h2, if_neg h3]

theorem pyIsSpace_cases {c : Char} (h : pyIsSpace c = true) :
    c = ' ' ∨ c = '\t' ∨ c = '\n' ∨ c = '\r' ∨ c = Char.ofNat 11 ∨ c = Char.ofNat 12 := by
  simp only [pyIsSpace, Bool.or_eq_true, decide_eq_true_eq] at h
  tauto

theorem pyToLower_of_space {c : Char} (h : pyIsSpace c = true) : pyToLower c = c := by
  rcases pyIsSpace_cases h with h | h | h | h | h | h <;> subst h <;> decide

theorem not_space_of_word {c : Char} (h : pyIsWordChar c = true) : pyIsSpace c = false := by
  by_contra hne
  have hs : pyIsSpace c = true := by
    cases he : pyIsSpace c
    · exact absurd he hne
    · rfl
  rcases pyIsSpace_cases hs with h2 | h2 | h2 | h2 | h2 | h2 <;> subst h2 <;> revert h <;> decide

/-! ### Step lemmas for the recursive helpers -/

theorem pySplitAux_cons_space {c : Char} (hc : pyIsSpace c = true) (rest acc : List Char) :
    pySplitAux (c :: rest) acc =
      if acc = [] then pySplitAux rest [] else acc.reverse :: pySplitAux rest [] := by
  by_cases hacc : acc = [] <;> simp [pySplitAux, hc, hacc]

theorem pySplitAux_cons_nonspace {c : Char} (hc : pyIsSpace c = false) (rest acc : List Char) :
    pySplitAux (c :: rest) acc = pySplitAux rest (c :: acc) := by
  simp [pySplitAux, hc]

theorem collapseSpacesAux_cons_space {c : Char} (hc : pyIsSpace c = true)
    (rest : List Char) (b : Bool) :
    collapseSpacesAux (c :: rest) b =
      if b then collapseSpacesAux rest true else ' ' :: collapseSpacesAux rest true := by
  cases b <;> simp [collapseSpacesAux, hc]

theorem collapseSpacesAux_cons_nonspace {c : Char} (hc : pyIsSpace c = false)
    (rest : List Char) (b : Bool) :
    collapseSpacesAux (c :: rest) b = c :: collapseSpacesAux rest false := by
  simp [collapseSpacesAux, hc]

theorem spaceChar_isSpace : pyIsSpace ' ' = true := by decide

/-! ### The whitespace-collapse and strip steps do not affect the split -/

theorem pySplitAux_collapse :
    ∀ s : List Char, (∀ acc, pySplitAux (collapseSpacesAux s false) acc = pySplitAux s acc) ∧
      pySplitAux (collapseSpacesAux s true) [] = pySplitAux s [] := by
  intro s
  induction s with
  | nil => exact ⟨fun acc => rfl, rfl⟩
  | cons c rest ih =>
    constructor
    · intro acc
      cases hc : pyIsSpace c with
      | true =>
        rw [collapseSpacesAux_cons_space hc rest false, if_neg (by simp)]
        rw [pySplitAux_cons_space spaceChar_isSpace, pySplitAux_cons_space hc]
        by_cases hacc : acc = []
        · rw [if_pos hacc, if_pos hacc, ih.2]
        · rw [if_neg hacc, if_neg hacc, ih.2]
      | false =>
        rw [collapseSpacesAux_cons_nonspace hc rest false]
        rw [pySplitAux_cons_nonspace hc, pySplitAux_cons_nonspace hc]
        exact ih.1 _
    · cases hc : pyIsSpace c with
      | true =>
        rw [collapseSpacesAux_cons_space hc rest true, if_pos rfl]
        rw [pySplitAux_cons_space hc, if_pos rfl]
        exact ih.2
      | false =>
        rw [collapseSpacesAux_cons_nonspace hc rest true]
        rw [pySplitAux_cons_nonspace hc, pySplitAux_cons_nonspace hc]
        exact ih.1 _

theorem pySplit_collapse (s : List Char) : pySplit (collapseSpaces s) = pySplit s :=
  (pySplitAux_collapse s).1 []

theorem pySplitAux_dropWhile (s : List Char) :
    pySplitAux (s.dropWhile pyIsSpace) [] = pySplitAux s [] := by
  induction s with
  | nil => rfl
  | cons c rest ih =>
    cases hc : pyIsSpace c with
    | true =>
      rw [List.dropWhile_cons_of_pos hc, ih, pySplitAux_cons_space hc, if_pos rfl]
    | false =>
      rw [List.dropWhile_cons_of_neg (by simp [hc])]

theorem pySplitAux_all_space (t : List Char) (h : ∀ c ∈ t, pyIsSpace c = true) :
    ∀ acc, pySplitAux t acc = pySplitAux [] acc := by
  induction t with
  | nil => intro acc; rfl
  | cons c rest ih =>
    intro acc
    have hc : pyIsSpace c = true := h c (List.mem_cons_self c rest)
    have ih2 := ih (fun x hx => h x (List.mem_cons_of_mem c hx))
    rw [pySplitAux_cons_space hc]
    by_cases hacc : acc = []
    · rw [if_pos hacc, ih2 [], hacc]
    · rw [if_neg hacc, ih2 []]
      simp [pySplitAux, hacc]

theorem pySplitAux_append_space (u t : List Char) (h : ∀ c ∈ t, pyIsSpace c = true) :
    ∀ acc, pySplitAux (u ++ t) acc = pySplitAux u acc := by
  induction u with
  | nil =>
    intro acc
    simpa using pySplitAux_all_space t h acc
  | cons c rest ih =>
    intro acc
    rw [List.cons_append]
    cases hc : pyIsSpace c with
    | true =>
      rw [pySplitAux_cons_space hc, pySplitAux_cons_space hc, ih]
    | false =>
      rw [pySplitAux_cons_nonspace hc, pySplitAux_cons_nonspace hc, ih]

theorem pySplit_strip (s : List Char) : pySplit (pyStrip s) = pySplit s := by
  unfold pyStrip pySplit
  set u := s.dropWhile pyIsSpace with hu
  have h1 : u.reverse.takeWhile pyIsSpace ++ u.reverse.dropWhile pyIsSpace = u.reverse :=
    List.takeWhile_append_dropWhile pyIsSpace u.reverse
  have hdecomp : u = (u.reverse.dropWhile pyIsSpace).reverse ++ (u.reverse.takeWhile pyIsSpace).reverse := by
    calc u = u.reverse.reverse := (List.reverse_reverse u).symm
    _ = (u.reverse.takeWhile pyIsSpace ++ u.reverse.dropWhile pyIsSpace).reverse := by rw [h1]
    _ = _ := by rw [List.reverse_append]
  have hsp : ∀ c ∈ (u.reverse.takeWhile pyIsSpace).reverse, pyIsSpace c = true := by
    intro c hc
    rw [List.mem_reverse] at hc
    exact List.mem_takeWhile_imp hc
  calc pySplitAux ((u.reverse.dropWhile pyIsSpace).reverse) []
      = pySplitAux ((u.reverse.dropWhile pyIsSpace).reverse ++ (u.reverse.takeWhile pyIsSpace).reverse) [] :=
        (pySplitAux_append_space _ _ hsp []).symm
    _ = pySplitAux u [] := by rw [← hdecomp]
    _ = pySplitAux s [] := pySplitAux_dropWhile s

/-- The tokenizer, characterized directly: lowercase, replace, and split
on whitespace — the collapse and strip steps change nothing. -/
theorem preprocess_eq_split (text : List Char) :
    preprocess_text text =
      if text = [] then []
      else pySplit ((text.map pyToLower).map replaceNonWord) := by
  unfold preprocess_text
  by_cases h : text = []
  · simp [h]
  · simp only [h, if_false]
    rw [pySplit_strip, pySplit_collapse]

/-! ### Joining tokens with single spaces -/

theorem mem_joinSpace {c : Char} :
    ∀ {ts : List (List Char)}, c ∈ joinSpace ts → c = ' ' ∨ ∃ w ∈ ts, c ∈ w := by
  intro ts
  induction ts with
  | nil => intro h; exact absurd h (List.not_mem_nil c)
  | cons w rest ih =>
    intro h
    cases rest with
    | nil =>
      exact Or.inr ⟨w, List.mem_cons_self w [], by simpa [joinSpace] using h⟩
    | cons w2 rest2 =>
      rw [show joinSpace (w :: w2 :: rest2) = w ++ ' ' :: joinSpace (w2 :: rest2) from rfl] at h
      rcases List.mem_append.mp h with h1 | h1
      · exact Or.inr ⟨w, List.mem_cons_self w _, h1⟩
      · rcases List.mem_cons.mp h1 with h2 | h2
        · exact Or.inl h2
        · rcases ih h2 with h3 | ⟨w3, hw3, hc3⟩
          · exact Or.inl h3
          · exact Or.inr ⟨w3, List.mem_cons_of_mem w hw3, hc3⟩

theorem map_fix {f : Char → Char} :
    ∀ {l : List Char}, (∀ c ∈ l, f c = c) → l.map f = l := by
  intro l
  induction l with
  | nil => intro _; rfl
  | cons c rest ih =>
    intro h
    rw [List.map_cons, h c (List.mem_cons_self c rest),
      ih (fun x hx => h x (List.mem_cons_of_mem c hx))]

theorem pySplitAux_append_nonspace (w : List Char) (hw : ∀ c ∈ w, pyIsSpace c = false) :
    ∀ t acc, pySplitAux (w ++ t) acc = pySplitAux t (w.reverse ++ acc) := by
  induction w with
  | nil => intro t acc; simp
  | cons c rest ih =>
    intro t acc
    have hc : pyIsSpace c = false := hw c (List.mem_cons_self c rest)
    rw [List.cons_append, pySplitAux_cons_nonspace hc,
      ih (fun x hx => hw x (List.mem_cons_of_mem c hx)) t (c :: acc)]
    simp

theorem pySplit_joinSpace :
    ∀ ts : List (List Char),
      (∀ w ∈ ts, w ≠ [] ∧ ∀ c ∈ w, pyIsSpace c = false) →
      pySplit (joinSpace ts) = ts := by
  intro ts
  induction ts with
  | nil => intro _; rfl
  | cons w rest ih =>
    intro h
    have hw := h w (List.mem_cons_self w rest)
    cases rest with
    | nil =>
      show pySplit w = [w]
      unfold pySplit
      rw [← List.append_nil w, pySplitAux_append_nonspace w hw.2]
      simp [pySplitAux, hw.1]
    | cons w2 rest2 =>
      show pySplit (w ++ ' ' :: joinSpace (w2 :: rest2)) = w :: w2 :: rest2
      unfold pySplit
      rw [pySplitAux_append_nonspace w hw.2]
      rw [pySplitAux_cons_space spaceChar_isSpace]
      rw [if_neg (by simp [hw.1])]
      have ih2 := ih (fun x hx => h x (List.mem_cons_of_mem w hx))
      unfold pySplit at ih2
      rw [ih2]
      simp

theorem replaceNonWord_of_word {c : Char} (h : pyIsWordChar c = true) :
    replaceNonWord c = c := by
  unfold replaceNonWord
  rw [if_neg]
  intro hcon
  rw [h] at hcon
  exact hcon.1 rfl

theorem replaceNonWord_of_space {c : Char} (h : pyIsSpace c = true) :
    replaceNonWord c = c := by
  unfold replaceNonWord
  rw [if_neg]
  intro hcon
  rw [h] at hcon
  exact hcon.2 rfl

/-- Re-tokenizing the space-joined form of a list of clean tokens gives
the tokens back. -/
theorem preprocess_join (ts : List (List Char))
    (h : ∀ w ∈ ts, w ≠ [] ∧ ∀ c ∈ w, pyIsWordChar c = true ∧ pyToLower c = c) :
    preprocess_text (joinSpace ts) = ts := by
  rw [preprocess_eq_split]
  by_cases hts : joinSpace ts = []
  · rw [if_pos hts]
    cases ts with
    | nil => rfl
    | cons w rest =>
      exfalso
      have hw := h w (List.mem_cons_self w rest)
      cases rest with
      | nil => exact hw.1 (by simpa [joinSpace] using hts)
      | cons w2 rest2 =>
        rw [show joinSpace (w :: w2 :: rest2) = w ++ ' ' :: joinSpace (w2 :: rest2) from rfl] at hts
        rcases List.append_eq_nil.mp hts with ⟨-, h2⟩
        exact List.cons_ne_nil _ _ h2
  · rw [if_neg hts]
    have hfix1 : (joinSpace ts).map pyToLower = joinSpace ts := by
      apply map_fix
      intro c hc
      rcases mem_joinSpace hc with h1 | ⟨w, hw, hcw⟩
      · subst h1; decide
      · exact ((h w hw).2 c hcw).2
    have hfix2 : (joinSpace ts).map replaceNonWord = joinSpace ts := by
      apply map_fix
      intro c hc
      rcases mem_joinSpace hc with h1 | ⟨w, hw, hcw⟩
      · subst h1; decide
      · exact replaceNonWord_of_word ((h w hw).2 c hcw).1
    rw [hfix1, hfix2]
    exact pySplit_joinSpace ts (fun w hw =>
      ⟨(h w hw).1, fun c hc => not_space_of_word ((h w hw).2 c hc).1⟩)

/-! ### Properties of the tokens the tokenizer produces -/

theorem pySplitAux_tokens (P : Char → Prop) :
    ∀ (s acc : List Char),
      (∀ c ∈ s, pyIsSpace c = false → P c) →
      (∀ c ∈ acc, pyIsSpace c = false ∧ P c) →
      ∀ w ∈ pySplitAux s acc, w ≠ [] ∧ ∀ c ∈ w, pyIsSpace c = false ∧ P c := by
  intro s
  induction s with
  | nil =>
    intro acc _ hacc w hw
    by_cases h0 : acc = []
    · simp [pySplitAux, h0] at hw
    · simp only [pySplitAux, if_neg h0, List.mem_singleton] at hw
      subst hw
      refine ⟨by simpa using h0, fun c hc => hacc c (List.mem_reverse.mp hc)⟩
  | cons c rest ih =>
    intro acc hs hacc w hw
    cases hc : pyIsSpace c with
    | true =>
      rw [pySplitAux_cons_space hc] at hw
      by_cases h0 : acc = []
      · rw [if_pos h0] at hw
        exact ih [] (fun x hx h => hs x (List.mem_cons_of_mem c hx) h) (by simp) w hw
      · rw [if_neg h0] at hw
        rcases List.mem_cons.mp hw with h1 | h1
        · subst h1
          exact ⟨by simpa using h0, fun x hx => hacc x (List.mem_reverse.mp hx)⟩
        · exact ih [] (fun x hx h => hs x (List.mem_cons_of_mem c hx) h) (by simp) w h1
    | false =>
      rw [pySplitAux_cons_nonspace hc] at hw
      refine ih (c :: acc) (fun x hx h => hs x (List.mem_cons_of_mem c hx) h) ?_ w hw
      intro x hx
      rcases List.mem_cons.mp hx with h1 | h1
      · rw [h1]
        exact ⟨hc, hs c (List.mem_cons_self c rest) hc⟩
      · exact hacc x h1

theorem replaceNonWord_lower_ok (d : Char) (hns : pyIsSpace (replaceNonWord (pyToLower d)) = false) :
    pyIsWordChar (replaceNonWord (pyToLower d)) = true ∧
      pyToLower (replaceNonWord (pyToLower d)) = replaceNonWord (pyToLower d) := by
  by_cases hword : pyIsWordChar (pyToLower d) = true
  · rw [replaceNonWord_of_word hword] at hns ⊢
    exact ⟨hword, pyToLower_idem d⟩
  · by_cases hspace : pyIsSpace (pyToLower d) = true
    · rw [replaceNonWord_of_space hspace] at hns
      rw [hspace] at hns
      exact absurd hns (by simp)
    · exfalso
      have : replaceNonWord (pyToLower d) = ' ' := by
        unfold replaceNonWord
        rw [if_pos]
        exact ⟨by simpa using hword, by simpa using hspace⟩
      rw [this] at hns
      rw [spaceChar_isSpace] at hns
      exact absurd hns (by simp)

/-- Every token of `preprocess_text` is non-empty and consists of
already-lowercased word characters. -/
theorem preprocess_tokens (text : List Char) :
    ∀ w ∈ preprocess_text text,
      w ≠ [] ∧ ∀ c ∈ w, pyIsWordChar c = true ∧ pyToLower c = c := by
  intro w hw
  rw [preprocess_eq_split] at hw
  by_cases ht : text = []
  · rw [if_pos ht] at hw
    exact absurd hw (List.not_mem_nil w)
  · rw [if_neg ht] at hw
    have key := pySplitAux_tokens
      (fun c => pyIsWordChar c = true ∧ pyToLower c = c)
      ((text.map pyToLower).map replaceNonWord) []
      (by
        intro c hc hns
        rw [List.map_map] at hc
        rcases List.mem_map.mp hc with ⟨d, -, hd⟩
        subst hd
        exact replaceNonWord_lower_ok d hns)
      (by simp) w hw
    exact ⟨key.1, fun c hc => (key.2 c hc).2⟩

/-! ### Further rounding and dedup helpers -/

theorem roundTo_le_one {q : ℚ} {d : ℕ} (h : q ≤ 1) : roundTo q d ≤ 1 := by
  have h1 : roundTo q d ≤ ((1 : ℕ) : ℚ) := roundTo_le_nat (by exact_mod_cast h)
  simpa using h1

theorem dedup_replicate_succ {α : Type} [DecidableEq α] (n : ℕ) (x : α) :
    (List.replicate (n + 1) x).dedup = [x] := by
  induction n with
  | zero => simp
  | succ m ih =>
    rw [List.replicate_succ, List.dedup_cons_of_mem (by simp), ih]

/-- C6: the number of distinct tokens never exceeds the number of
tokens, and each count vanishes exactly when the tokenization is
empty. -/
theorem claim6_unique_le_total (text : List Char) :
    count_unique_words text ≤ count_words text ∧
    (count_unique_words text = 0 ↔ preprocess_text text = []) ∧
    (count_words text = 0 ↔ preprocess_text text = []) := by
  unfold count_unique_words count_words
  refine ⟨(List.dedup_sublist _).length_le, ?_, ?_⟩
  · rw [List.length_eq_zero, List.dedup_eq_nil]
  · rw [List.length_eq_zero]

/-- C8: the tokenizer is idempotent on already-normalized input:
re-tokenizing the space-joined token sequence returns the same
sequence. -/
theorem claim8_tokenizer_idempotent (text : List Char) :
    preprocess_text (joinSpace (preprocess_text text)) = preprocess_text text :=
  preprocess_join _ (preprocess_tokens text)

/-- C4: the concrete scenario "Hello hello WORLD! Hello?" produces the
four lowercase tokens, counts 4 and 2, TTR 0.5, longest word "hello"
(first of the equally long candidates), lexical density 1, one line and
two sentences. -/
theorem claim4_scenario :
    preprocess_text scenarioText =
      [("hello").toList, ("hello").toList, ("world").toList, ("hello").toList] ∧
    count_words scenarioText = 4 ∧
    count_unique_words scenarioText = 2 ∧
    calculate_ttr scenarioText = 1 / 2 ∧
    find_longest_word scenarioText = ("hello").toList ∧
    calculate_lexical_density scenarioText = 1 ∧
    count_lines scenarioText = 1 ∧
    calculate_sentence_count scenarioText = 2 := by
  refine ⟨by decide, by decide, by decide, ?_, by decide, ?_, by decide, by decide⟩
  · rw [calculate_ttr]
    simp only [show count_words scenarioText = 4 by decide,
      show count_unique_words scenarioText = 2 by decide]
    norm_num [roundTo]
  · have h3 : ¬ preprocess_text scenarioText = [] := by decide
    have h : ((preprocess_text scenarioText).filter (fun w => w.length > 3)).length = 4 := by
      decide
    have h2 : (preprocess_text scenarioText).length = 4 := by decide
    rw [calculate_lexical_density]
    simp only [if_neg h3, h, h2]
    norm_num [roundTo]

/-- C2 is false as stated: lexical density is 0 on "a b" although the
word count is 2, and the TTR of 20001 copies of one token rounds to 0
although the word count is 20001. -/
theorem claim2_counterexample :
    calculate_lexical_density abText = 0 ∧ count_words abText = 2 ∧
    calculate_ttr cexTtrText = 0 ∧ count_words cexTtrText = 20001 := by
  have hp : preprocess_text cexTtrText = List.replicate 20001 ['a'] := by
    rw [show cexTtrText = joinSpace (List.replicate 20001 ['a']) from rfl]
    apply preprocess_join
    intro w hw
    rw [List.eq_of_mem_replicate hw]
    refine ⟨by simp, fun c hc => ?_⟩
    rw [List.mem_singleton.mp hc]
    exact ⟨by decide, by decide⟩
  have hcw : count_words cexTtrText = 20001 := by
    rw [count_words, hp, List.length_replicate]
  have hcu : count_unique_words cexTtrText = 1 := by
    rw [count_unique_words, hp, show (20001 : ℕ) = 20000 + 1 from rfl,
      dedup_replicate_succ, List.length_singleton]
  refine ⟨?_, by decide, ?_, hcw⟩
  · have h3 : ¬ preprocess_text abText = [] := by decide
    have h : ((preprocess_text abText).filter (fun w => w.length > 3)).length = 0 := by decide
    have h2 : (preprocess_text abText).length = 2 := by decide
    rw [calculate_lexical_density]
    simp only [if_neg h3, h, h2]
    norm_num [roundTo]
  · rw [calculate_ttr]
    simp only [hcw, hcu]
    rw [if_neg (by norm_num), roundTo]
    norm_num

/-- C2 (amended): both ratios always lie in [0, 1], and both are 0.0
whenever the word count is 0 (the converse does not hold). -/
theorem claim2_amended (text : List Char) :
    0 ≤ calculate_ttr text ∧ calculate_ttr text ≤ 1 ∧
    0 ≤ calculate_lexical_density text ∧ calculate_lexical_density text ≤ 1 ∧
    (count_words text = 0 →
      calculate_ttr text = 0 ∧ calculate_lexical_density text = 0) := by
  have husub : count_unique_words text ≤ count_words text :=
    (claim6_unique_le_total text).1
  have httr : 0 ≤ calculate_ttr text ∧ calculate_ttr text ≤ 1 := by
    by_cases h : count_words text = 0
    · rw [calculate_ttr]
      simp only [h, if_pos rfl]
      norm_num
    · rw [calculate_ttr]
      simp only [if_neg h]
      have hq0 : (0 : ℚ) ≤ (count_unique_words text : ℚ) / (count_words text : ℚ) :=
        div_nonneg (by positivity) (by positivity)
      have hq1 : (count_unique_words text : ℚ) / (count_words text : ℚ) ≤ 1 := by
        rw [div_le_one (by exact_mod_cast Nat.pos_of_ne_zero h)]
        exact_mod_cast husub
      exact ⟨roundTo_nonneg hq0, roundTo_le_one hq1⟩
  have hld : 0 ≤ calculate_lexical_density text ∧ calculate_lexical_density text ≤ 1 := by
    by_cases h : preprocess_text text = []
    · rw [calculate_lexical_density]
      simp only [h, if_pos rfl]
      norm_num
    · rw [calculate_lexical_density]
      simp only [if_neg h]
      have hpos : 0 < (preprocess_text text).length := List.length_pos.mpr h
      have hq0 : (0 : ℚ) ≤
          (((preprocess_text text).filter (fun w => w.length > 3)).length : ℚ) /
            ((preprocess_text text).length : ℚ) :=
        div_nonneg (by positivity) (by positivity)
      have hq1 : (((preprocess_text text).filter (fun w => w.length > 3)).length : ℚ) /
          ((preprocess_text text).length : ℚ) ≤ 1 := by
        rw [div_le_one (by exact_mod_cast hpos)]
        exact_mod_cast List.length_filter_le _ _
      exact ⟨roundTo_nonneg hq0, roundTo_le_one hq1⟩
  refine ⟨httr.1, httr.2, hld.1, hld.2, fun h => ⟨?_, ?_⟩⟩
  · rw [calculate_ttr]
    simp [h]
  · have h2 : preprocess_text text = [] := List.length_eq_zero.mp h
    rw [calculate_lexical_density]
    simp [h2]

/-- Witness for C2 (amended) at the scenario input. -/
theorem claim2_amended_witness :
    0 ≤ calculate_ttr scenarioText ∧ calculate_ttr scenarioText ≤ 1 ∧
    0 ≤ calculate_lexical_density scenarioText ∧
    calculate_lexical_density scenarioText ≤ 1 ∧
    (count_words scenarioText = 0 →
      calculate_ttr scenarioText = 0 ∧ calculate_lexical_density scenarioText = 0) :=
  claim2_amended scenarioText

/-- C3: the readability analysis returns exactly `{readability_score: 0}`
on the three early-exit conditions; otherwise it returns the clamped,
rounded score together with words-per-sentence and the sentence count;
the score always lies in [0, 100]. -/
theorem claim3_readability (text : List Char) :
    (text = [] ∨ preprocess_text text = [] ∨ calculate_sentence_count text = 0 →
      analyze_text_readability text = ⟨0, none, none⟩) ∧
    (text ≠ [] → preprocess_text text ≠ [] → calculate_sentence_count text ≠ 0 →
      analyze_text_readability text =
        ⟨roundTo (max 0 (min 100
            (100 - ((count_words text : ℚ) / (calculate_sentence_count text : ℚ) - 10) * 2))) 2,
          some (roundTo ((count_words text : ℚ) / (calculate_sentence_count text : ℚ)) 2),
          some (calculate_sentence_count text)⟩) ∧
    0 ≤ (analyze_text_readability text).readability_score ∧
    (analyze_text_readability text).readability_score ≤ 100 := by
  have hscore100 : ∀ x : ℚ, roundTo (max 0 (min 100 x)) 2 ≤ 100 := by
    intro x
    have h1 : max 0 (min 100 x) ≤ ((100 : ℕ) : ℚ) := by
      apply max_le (by norm_num)
      calc min 100 x ≤ 100 := min_le_left _ _
      _ = ((100 : ℕ) : ℚ) := by norm_num
    have := roundTo_le_nat (d := 2) h1
    calc roundTo (max 0 (min 100 x)) 2 ≤ ((100 : ℕ) : ℚ) := this
    _ = 100 := by norm_num
  have hscore0 : ∀ x : ℚ, 0 ≤ roundTo (max 0 (min 100 x)) 2 := fun x =>
    roundTo_nonneg (le_max_left 0 _)
  by_cases ht : text = []
  · have he : analyze_text_readability text = ⟨0, none, none⟩ := by
      rw [analyze_text_readability, if_pos ht]
    refine ⟨fun _ => he, fun h1 _ _ => absurd ht h1, ?_, ?_⟩ <;> rw [he] <;> norm_num
  · by_cases hw : preprocess_text text = []
    · have he : analyze_text_readability text = ⟨0, none, none⟩ := by
        rw [analyze_text_readability, if_neg ht, if_pos (Or.inl hw)]
      refine ⟨fun _ => he, fun _ h2 _ => absurd hw h2, ?_, ?_⟩ <;> rw [he] <;> norm_num
    · by_cases hs : calculate_sentence_count text = 0
      · have he : analyze_text_readability text = ⟨0, none, none⟩ := by
          rw [analyze_text_readability, if_neg ht, if_pos (Or.inr hs)]
        refine ⟨fun _ => he, fun _ _ h3 => absurd hs h3, ?_, ?_⟩ <;> rw [he] <;> norm_num
      · have he : analyze_text_readability text =
            ⟨roundTo (max 0 (min 100
                (100 - ((count_words text : ℚ) / (calculate_sentence_count text : ℚ) - 10) * 2))) 2,
              some (roundTo ((count_words text : ℚ) / (calculate_sentence_count text : ℚ)) 2),
              some (calculate_sentence_count text)⟩ := by
          rw [analyze_text_readability, if_neg ht, if_neg (by push_neg; exact ⟨hw, hs⟩)]
          rfl
        refine ⟨fun habs => ?_, fun _ _ _ => he, ?_, ?_⟩
        · rcases habs with h1 | h1 | h1
          · exact absurd h1 ht
          · exact absurd h1 hw
          · exact absurd h1 hs
        · rw [he]; exact hscore0 _
        · rw [he]; exact hscore100 _

/-- Witness for C3 at the scenario input: all three guards fail, so the
full record is returned. -/
theorem claim3_readability_witness :
    analyze_text_readability scenarioText =
      ⟨roundTo (max 0 (min 100
          (100 - ((count_words scenarioText : ℚ) /
            (calculate_sentence_count scenarioText : ℚ) - 10) * 2))) 2,
        some (roundTo ((count_words scenarioText : ℚ) /
          (calculate_sentence_count scenarioText : ℚ)) 2),
        some (calculate_sentence_count scenarioText)⟩ :=
  (claim3_readability scenarioText).2.1 (by decide) (by decide) (by decide)

/-! ### Sentence fragments cover every non-separator character -/

theorem splitRunsAux_covers :
    ∀ (s acc : List Char) (flag : Bool) (c : Char),
      ((c ∈ s ∧ isSentEnd c = false) ∨ c ∈ acc) →
      ∃ w ∈ splitRunsAux s acc flag, c ∈ w := by
  intro s
  induction s with
  | nil =>
    intro acc flag c h
    rcases h with ⟨h1, -⟩ | h1
    · exact absurd h1 (List.not_mem_nil c)
    · exact ⟨acc.reverse, List.mem_singleton.mpr rfl, List.mem_reverse.mpr h1⟩
  | cons c2 rest ih =>
    intro acc flag c h
    cases hc2 : isSentEnd c2 with
    | true =>
      cases flag with
      | true =>
        have hstep : splitRunsAux (c2 :: rest) acc true = splitRunsAux rest acc true := by
          simp [splitRunsAux, hc2]
        rw [hstep]
        apply ih
        rcases h with ⟨h1, h3⟩ | h1
        · rcases List.mem_cons.mp h1 with he | he
          · rw [he, hc2] at h3
            exact absurd h3 (by simp)
          · exact Or.inl ⟨he, h3⟩
        · exact Or.inr h1
      | false =>
        have hstep : splitRunsAux (c2 :: rest) acc false =
            acc.reverse :: splitRunsAux rest [] true := by
          simp [splitRunsAux, hc2]
        rw [hstep]
        rcases h with ⟨h1, h3⟩ | h1
        · rcases List.mem_cons.mp h1 with he | he
          · rw [he, hc2] at h3
            exact absurd h3 (by simp)
          · obtain ⟨w, hw, hcw⟩ := ih [] true c (Or.inl ⟨he, h3⟩)
            exact ⟨w, List.mem_cons_of_mem _ hw, hcw⟩
        · exact ⟨acc.reverse, List.mem_cons_self _ _, List.mem_reverse.mpr h1⟩
    | false =>
      have hstep : splitRunsAux (c2 :: rest) acc flag =
          splitRunsAux rest (c2 :: acc) false := by
        cases flag <;> simp [splitRunsAux, hc2]
      rw [hstep]
      apply ih
      rcases h with ⟨h1, h3⟩ | h1
      · rcases List.mem_cons.mp h1 with he | he
        · exact Or.inr (by rw [he]; exact List.mem_cons_self _ _)
        · exact Or.inl ⟨he, h3⟩
      · exact Or.inr (List.mem_cons_of_mem _ h1)

theorem mem_dropWhile_of_neg {p : Char → Bool} {c : Char} (hc : p c = false) :
    ∀ {l : List Char}, c ∈ l → c ∈ l.dropWhile p := by
  intro l
  induction l with
  | nil => intro h; exact absurd h (List.not_mem_nil c)
  | cons d rest ih =>
    intro h
    cases hd : p d with
    | true =>
      rw [List.dropWhile_cons_of_pos hd]
      rcases List.mem_cons.mp h with he | he
      · rw [he, hd] at hc
        exact absurd hc (by simp)
      · exact ih he
    | false =>
      rw [List.dropWhile_cons_of_neg (by simp [hd])]
      exact h

theorem pyStrip_ne_nil {s : List Char} {c : Char} (hc : pyIsSpace c = false) (h : c ∈ s) :
    pyStrip s ≠ [] := by
  unfold pyStrip
  intro hnil
  have h1 : c ∈ s.dropWhile pyIsSpace := mem_dropWhile_of_neg hc h
  have h2 : c ∈ (s.dropWhile pyIsSpace).reverse := List.mem_reverse.mpr h1
  have h3 : c ∈ (s.dropWhile pyIsSpace).reverse.dropWhile pyIsSpace :=
    mem_dropWhile_of_neg hc h2
  rw [List.reverse_eq_nil_iff] at hnil
  rw [hnil] at h3
  exact absurd h3 (List.not_mem_nil c)

/-- A non-empty tokenization forces a character in the raw text that is
neither a sentence ender nor whitespace. -/
theorem exists_content_char {text : List Char} (h : preprocess_text text ≠ []) :
    ∃ c ∈ text, isSentEnd c = false ∧ pyIsSpace c = false := by
  rw [preprocess_eq_split] at h
  by_cases ht : text = []
  · rw [if_pos ht] at h
    exact absurd rfl h
  · rw [if_neg ht] at h
    have hex : ∃ c ∈ (text.map pyToLower).map replaceNonWord, pyIsSpace c = false := by
      by_contra hall
      push_neg at hall
      apply h
      unfold pySplit
      rw [pySplitAux_all_space _ (fun c hc => by
        have h2 := hall c hc
        cases hh : pyIsSpace c
        · exact absurd hh h2
        · rfl) []]
      rfl
    obtain ⟨c2, hc2mem, hc2⟩ := hex
    rw [List.map_map] at hc2mem
    obtain ⟨d, hd, hde⟩ := List.mem_map.mp hc2mem
    refine ⟨d, hd, ?_, ?_⟩
    · by_contra hend
      have hend2 : isSentEnd d = true := by
        cases hh : isSentEnd d
        · exact absurd hh hend
        · rfl
      have hd3 : d = '.' ∨ d = '!' ∨ d = '?' := by
        simp only [isSentEnd, Bool.or_eq_true, decide_eq_true_eq] at hend2
        tauto
      rcases hd3 with he | he | he <;> rw [he] at hde <;>
        rw [show c2 = ' ' from by rw [← hde]; decide] at hc2 <;>
        exact absurd hc2 (by decide)
    · by_contra hsp
      have hsp2 : pyIsSpace d = true := by
        cases hh : pyIsSpace d
        · exact absurd hh hsp
        · rfl
      have hc2d : c2 = d := by
        rw [← hde]
        simp only [Function.comp_apply]
        rw [pyToLower_of_space hsp2, replaceNonWord_of_space hsp2]
      rw [hc2d, hsp2] at hc2
      exact absurd hc2 (by simp)

/-- C9: a non-empty tokenization guarantees at least one sentence, so
the `sentences == 0` early exit is unreachable with words present and
the division in the readability analysis is always guarded. -/
theorem claim9_division_guarded (text : List Char) (h : preprocess_text text ≠ []) :
    1 ≤ calculate_sentence_count text := by
  obtain ⟨c, hcmem, hcend, hcsp⟩ := exists_content_char h
  have ht : text ≠ [] := by
    intro he
    rw [he] at hcmem
    exact absurd hcmem (List.not_mem_nil c)
  rw [calculate_sentence_count, if_neg ht]
  obtain ⟨w, hw, hcw⟩ := splitRunsAux_covers text [] false c (Or.inl ⟨hcmem, hcend⟩)
  have hwstrip : pyStrip w ≠ [] := pyStrip_ne_nil hcsp hcw
  have hmem : pyStrip w ∈ ((splitRunsAux text [] false).map pyStrip).filter (· ≠ []) := by
    rw [List.mem_filter]
    exact ⟨List.mem_map_of_mem pyStrip hw, by simpa using hwstrip⟩
  have hpos := List.length_pos.mpr (List.ne_nil_of_mem hmem)
  omega

/-- Witness for C9 at the scenario input. -/
theorem claim9_division_guarded_witness :
    preprocess_text scenarioText ≠ [] ∧ 1 ≤ calculate_sentence_count scenarioText :=
  ⟨by decide, claim9_division_guarded scenarioText (by decide)⟩

/-! ### Python max/min keep the first extremal element -/

theorem pyMaxByQ_first {α : Type} (f : α → ℚ) :
    ∀ (xs : List α) (cur : α),
      (pyMaxByQ f cur xs = cur ∧ ∀ x ∈ xs, f x ≤ f cur) ∨
      ∃ pre x post, xs = pre ++ x :: post ∧ pyMaxByQ f cur xs = x ∧
        f cur < f x ∧ (∀ y ∈ pre, f y < f x) ∧ (∀ y ∈ post, f y ≤ f x) := by
  intro xs
  induction xs with
  | nil => intro cur; exact Or.inl ⟨rfl, by simp⟩
  | cons a rest ih =>
    intro cur
    by_cases ha : f a > f cur
    · have hstep : pyMaxByQ f cur (a :: rest) = pyMaxByQ f a rest := by
        simp [pyMaxByQ, ha]
      rcases ih a with ⟨h1, h2⟩ | ⟨pre, x, post, hx1, hx2, hx3, hx4, hx5⟩
      · exact Or.inr ⟨[], a, rest, by simp, by rw [hstep, h1], ha, by simp, h2⟩
      · refine Or.inr ⟨a :: pre, x, post, by rw [hx1]; rfl, by rw [hstep, hx2],
          lt_trans ha hx3, ?_, hx5⟩
        intro y hy
        rcases List.mem_cons.mp hy with he | he
        · rw [he]; exact hx3
        · exact hx4 y he
    · have hstep : pyMaxByQ f cur (a :: rest) = pyMaxByQ f cur rest := by
        simp [pyMaxByQ, ha]
      push_neg at ha
      rcases ih cur with ⟨h1, h2⟩ | ⟨pre, x, post, hx1, hx2, hx3, hx4, hx5⟩
      · refine Or.inl ⟨by rw [hstep, h1], ?_⟩
        intro x hx
        rcases List.mem_cons.mp hx with he | he
        · rw [he]; exact ha
        · exact h2 x he
      · refine Or.inr ⟨a :: pre, x, post, by rw [hx1]; rfl, by rw [hstep, hx2], hx3, ?_, hx5⟩
        intro y hy
        rcases List.mem_cons.mp hy with he | he
        · rw [he]; exact lt_of_le_of_lt ha hx3
        · exact hx4 y he

theorem pyMinByQ_first {α : Type} (f : α → ℚ) :
    ∀ (xs : List α) (cur : α),
      (pyMinByQ f cur xs = cur ∧ ∀ x ∈ xs, f cur ≤ f x) ∨
      ∃ pre x post, xs = pre ++ x :: post ∧ pyMinByQ f cur xs = x ∧
        f x < f cur ∧ (∀ y ∈ pre, f x < f y) ∧ (∀ y ∈ post, f x ≤ f y) := by
  intro xs
  induction xs with
  | nil => intro cur; exact Or.inl ⟨rfl, by simp⟩
  | cons a rest ih =>
    intro cur
    by_cases ha : f a < f cur
    · have hstep : pyMinByQ f cur (a :: rest) = pyMinByQ f a rest := by
        simp [pyMinByQ, ha]
      rcases ih a with ⟨h1, h2⟩ | ⟨pre, x, post, hx1, hx2, hx3, hx4, hx5⟩
      · exact Or.inr ⟨[], a, rest, by simp, by rw [hstep, h1], ha, by simp, h2⟩
      · refine Or.inr ⟨a :: pre, x, post, by rw [hx1]; rfl, by rw [hstep, hx2],
          lt_trans hx3 ha, ?_, hx5⟩
        intro y hy
        rcases List.mem_cons.mp hy with he | he
        · rw [he]; exact hx3
        · exact hx4 y he
    · have hstep : pyMinByQ f cur (a :: rest) = pyMinByQ f cur rest := by
        simp [pyMinByQ, ha]
      push_neg at ha
      rcases ih cur with ⟨h1, h2⟩ | ⟨pre, x, post, hx1, hx2, hx3, hx4, hx5⟩
      · refine Or.inl ⟨by rw [hstep, h1], ?_⟩
        intro x hx
        rcases List.mem_cons.mp hx with he | he
        · rw [he]; exact ha
        · exact h2 x he
      · refine Or.inr ⟨a :: pre, x, post, by rw [hx1]; rfl, by rw [hstep, hx2], hx3, ?_, hx5⟩
        intro y hy
        rcases List.mem_cons.mp hy with he | he
        · rw [he]; exact lt_of_lt_of_le hx3 ha
        · exact hx4 y he

/-- C7: the corpus aggregation selects extremal records by word count
and by TTR with first-in-input-order tie-breaks, averages TTR
arithmetically, assigns the fixed-threshold qualitative labels, and on
the two-record scenario picks the first record as largest, the second as
smallest, with average TTR 0.55 and label "medium". -/
theorem claim7_aggregation :
    (∀ (r : MetricRecord) (rs : List MetricRecord),
      ∃ pre post, r :: rs = pre ++ maxWordsRecord r rs :: post ∧
        (∀ y ∈ pre, y.word_count < (maxWordsRecord r rs).word_count) ∧
        (∀ y ∈ post, y.word_count ≤ (maxWordsRecord r rs).word_count)) ∧
    (∀ (r : MetricRecord) (rs : List MetricRecord),
      ∃ pre post, r :: rs = pre ++ minWordsRecord r rs :: post ∧
        (∀ y ∈ pre, (minWordsRecord r rs).word_count < y.word_count) ∧
        (∀ y ∈ post, (minWordsRecord r rs).word_count ≤ y.word_count)) ∧
    (∀ (r : MetricRecord) (rs : List MetricRecord),
      ∃ pre post, r :: rs = pre ++ maxTtrRecord r rs :: post ∧
        (∀ y ∈ pre, y.ttr < (maxTtrRecord r rs).ttr) ∧
        (∀ y ∈ post, y.ttr ≤ (maxTtrRecord r rs).ttr)) ∧
    (∀ (r : MetricRecord) (rs : List MetricRecord),
      ∃ pre post, r :: rs = pre ++ minTtrRecord r rs :: post ∧
        (∀ y ∈ pre, (minTtrRecord r rs).ttr < y.ttr) ∧
        (∀ y ∈ post, (minTtrRecord r rs).ttr ≤ y.ttr)) ∧
    (∀ results : List MetricRecord,
      avgTtr results = (results.map MetricRecord.ttr).sum / (results.length : ℚ)) ∧
    (∀ q : ℚ, (q > 7 / 10 → diversity_label q = DiversityLabel.high) ∧
      (¬ q > 7 / 10 → q > 1 / 2 → diversity_label q = DiversityLabel.medium) ∧
      (¬ q > 7 / 10 → ¬ q > 1 / 2 → diversity_label q = DiversityLabel.low)) ∧
    (∀ q : ℚ, (q > 6 → word_length_label q = WordLenLabel.long) ∧
      (¬ q > 6 → q > 4 → word_length_label q = WordLenLabel.medium) ∧
      (¬ q > 6 → ¬ q > 4 → word_length_label q = WordLenLabel.short)) ∧
    maxWordsRecord recA [recB] = recA ∧
    minWordsRecord recA [recB] = recB ∧
    avgTtr [recA, recB] = 11 / 20 ∧
    diversity_label (avgTtr [recA, recB]) = DiversityLabel.medium := by
  have havg : avgTtr [recA, recB] = 11 / 20 := by
    rw [avgTtr]
    norm_num [recA, recB, MetricRecord.ttr]
  refine ⟨?_, ?_, ?_, ?_, fun _ => rfl, ?_, ?_, ?_, ?_, havg, ?_⟩
  · intro r rs
    rcases pyMaxByQ_first (fun x => (x.word_count : ℚ)) rs r with
      ⟨h1, h2⟩ | ⟨pre, x, post, hx1, hx2, hx3, hx4, hx5⟩
    · refine ⟨[], rs, ?_, by simp, ?_⟩
      · rw [show maxWordsRecord r rs = r from h1]
        rfl
      · intro y hy
        rw [show maxWordsRecord r rs = r from h1]
        exact_mod_cast h2 y hy
    · refine ⟨r :: pre, post, ?_, ?_, ?_⟩
      · rw [show maxWordsRecord r rs = x from hx2, hx1]
        rfl
      · intro y hy
        rw [show maxWordsRecord r rs = x from hx2]
        rcases List.mem_cons.mp hy with he | he
        · rw [he]; exact_mod_cast hx3
        · exact_mod_cast hx4 y he
      · intro y hy
        rw [show maxWordsRecord r rs = x from hx2]
        exact_mod_cast hx5 y hy
  · intro r rs
    rcases pyMinByQ_first (fun x => (x.word_count : ℚ)) rs r with
      ⟨h1, h2⟩ | ⟨pre, x, post, hx1, hx2, hx3, hx4, hx5⟩
    · refine ⟨[], rs, ?_, by simp, ?_⟩
      · rw [show minWordsRecord r rs = r from h1]
        rfl
      · intro y hy
        rw [show minWordsRecord r rs = r from h1]
        exact_mod_cast h2 y hy
    · refine ⟨r :: pre, post, ?_, ?_, ?_⟩
      · rw [show minWordsRecord r rs = x from hx2, hx1]
        rfl
      · intro y hy
        rw [show minWordsRecord r rs = x from hx2]
        rcases List.mem_cons.mp hy with he | he
        · rw [he]; exact_mod_cast hx3
        · exact_mod_cast hx4 y he
      · intro y hy
        rw [show minWordsRecord r rs = x from hx2]
        exact_mod_cast hx5 y hy
  · intro r rs
    rcases pyMaxByQ_first MetricRecord.ttr rs r with
      ⟨h1, h2⟩ | ⟨pre, x, post, hx1, hx2, hx3, hx4, hx5⟩
    · refine ⟨[], rs, ?_, by simp, ?_⟩
      · rw [show maxTtrRecord r rs = r from h1]
        rfl
      · intro y hy
        rw [show maxTtrRecord r rs = r from h1]
        exact h2 y hy
    · refine ⟨r :: pre, post, ?_, ?_, ?_⟩
      · rw [show maxTtrRecord r rs = x from hx2, hx1]
        rfl
      · intro y hy
        rw [show maxTtrRecord r rs = x from hx2]
        rcases List.mem_cons.mp hy with he | he
        · rw [he]; exact hx3
        · exact hx4 y he
      · intro y hy
        rw [show maxTtrRecord r rs = x from hx2]
        exact hx5 y hy
  · intro r rs
    rcases pyMinByQ_first MetricRecord.ttr rs r with
      ⟨h1, h2⟩ | ⟨pre, x, post, hx1, hx2, hx3, hx4, hx5⟩
    · refine ⟨[], rs, ?_, by simp, ?_⟩
      · rw [show minTtrRecord r rs = r from h1]
        rfl
      · intro y hy
        rw [show minTtrRecord r rs = r from h1]
        exact h2 y hy
    · refine ⟨r :: pre, post, ?_, ?_, ?_⟩
      · rw [show minTtrRecord r rs = x from hx2, hx1]
        rfl
      · intro y hy
        rw [show minTtrRecord r rs = x from hx2]
        rcases List.mem_cons.mp hy with he | he
        · rw [he]; exact hx3
        · exact hx4 y he
      · intro y hy
        rw [show minTtrRecord r rs = x from hx2]
        exact hx5 y hy
  · intro q
    refine ⟨fun h => ?_, fun h1 h2 => ?_, fun h1 h2 => ?_⟩
    · rw [diversity_label, if_pos h]
    · rw [diversity_label, if_neg h1, if_pos h2]
    · rw [diversity_label, if_neg h1, if_neg h2]
  · intro q
    refine ⟨fun h => ?_, fun h1 h2 => ?_, fun h1 h2 => ?_⟩
    · rw [word_length_label, if_pos h]
    · rw [word_length_label, if_neg h1, if_pos h2]
    · rw [word_length_label, if_neg h1, if_neg h2]
  · rw [maxWordsRecord, pyMaxByQ, if_neg (by norm_num [recA, recB])]
    rfl
  · rw [minWordsRecord, pyMinByQ, if_pos (by norm_num [recA, recB])]
    rfl
  · rw [havg, diversity_label, if_neg (by norm_num), if_pos (by norm_num)]

/-- Witness for C7: the label implications applied at concrete
averages. -/
theorem claim7_aggregation_witness :
    diversity_label (11 / 20) = DiversityLabel.medium ∧
    word_length_label (9 / 2) = WordLenLabel.medium := by
  have h := claim7_aggregation
  exact ⟨(h.2.2.2.2.2.1 (11 / 20)).2.1 (by norm_num) (by norm_num),
    (h.2.2.2.2.2.2.1 (9 / 2)).2.1 (by norm_num) (by norm_num)⟩

/-! ### Dictionary update lemmas -/

theorem find?_map_replace (rest : PyDict) (k k2 : List Char) (v : Value) (h : k2 ≠ k) :
    (rest.map (fun p => if p.1 = k then (k, v) else p)).find? (fun p => decide (p.1 = k2)) =
      rest.find? (fun p => decide (p.1 = k2)) := by
  induction rest with
  | nil => rfl
  | cons p rest2 ih =>
    simp only [List.map_cons]
    by_cases hp : p.1 = k
    · rw [if_pos hp]
      rw [List.find?_cons_of_neg _ (by simp [Ne.symm h]),
        List.find?_cons_of_neg _ (by simp [hp, Ne.symm h]), ih]
    · rw [if_neg hp]
      by_cases hp2 : p.1 = k2
      · rw [List.find?_cons_of_pos _ (by simp [hp2]), List.find?_cons_of_pos _ (by simp [hp2])]
      · rw [List.find?_cons_of_neg _ (by simp [hp2]), List.find?_cons_of_neg _ (by simp [hp2]), ih]

theorem find?_map_replace_self (rest : PyDict) (k : List Char) (v : Value)
    (hany : (rest.any fun p => decide (p.1 = k)) = true) :
    (rest.map (fun p => if p.1 = k then (k, v) else p)).find? (fun p => decide (p.1 = k)) =
      some (k, v) := by
  induction rest with
  | nil => simp at hany
  | cons p rest2 ih =>
    simp only [List.map_cons]
    by_cases hp : p.1 = k
    · rw [if_pos hp]
      rw [List.find?_cons_of_pos _ (by simp)]
    · rw [if_neg hp]
      rw [List.find?_cons_of_neg _ (by simp [hp])]
      apply ih
      simpa [List.any_cons, hp] using hany

theorem dictGet_dictSet_self (d : PyDict) (k : List Char) (v : Value) :
    dictGet (dictSet d k v) k = some v := by
  unfold dictSet
  by_cases hany : (d.any fun p => decide (p.1 = k)) = true
  · rw [if_pos hany]
    unfold dictGet
    rw [find?_map_replace_self d k v hany]
    rfl
  · rw [if_neg hany]
    unfold dictGet
    rw [List.find?_append]
    have hnone : d.find? (fun p => decide (p.1 = k)) = none := by
      rw [List.find?_eq_none]
      intro x hx
      simp only [decide_eq_true_eq]
      intro hxk
      exact hany (List.any_eq_true.mpr ⟨x, hx, by simp [hxk]⟩)
    rw [hnone]
    simp [List.find?]

theorem dictGet_dictSet_other (d : PyDict) (k k2 : List Char) (v : Value) (h : k2 ≠ k) :
    dictGet (dictSet d k v) k2 = dictGet d k2 := by
  unfold dictSet
  by_cases hany : (d.any fun p => decide (p.1 = k)) = true
  · rw [if_pos hany]
    unfold dictGet
    rw [find?_map_replace d k k2 v h]
  · rw [if_neg hany]
    unfold dictGet
    rw [List.find?_append]
    have h2 : List.find? (fun p => decide (p.1 = k2)) [(k, v)] = none := by
      rw [List.find?_eq_none]
      intro x hx
      rw [List.mem_singleton.mp hx]
      simp [Ne.symm h]
    rw [h2]
    cases hf : d.find? (fun p => decide (p.1 = k2)) <;> simp [hf]

theorem dictGet_dictUpdate_notin :
    ∀ (row d : PyDict) (k : List Char), (∀ v, (k, v) ∉ row) →
      dictGet (dictUpdate d row) k = dictGet d k := by
  intro row
  induction row with
  | nil => intro d k _; rfl
  | cons kv rest ih =>
    intro d k h
    have hk : k ≠ kv.1 := by
      intro he
      exact h kv.2 (by rw [he]; exact List.mem_cons_self _ _)
    show dictGet (dictUpdate (dictSet d kv.1 kv.2) rest) k = dictGet d k
    rw [ih (dictSet d kv.1 kv.2) k (fun v hv => h v (List.mem_cons_of_mem _ hv))]
    exact dictGet_dictSet_other d kv.1 k kv.2 hk

theorem dictGet_dictUpdate_mem :
    ∀ (row d : PyDict) (k : List Char) (v : Value),
      (row.map Prod.fst).Nodup → (k, v) ∈ row →
      dictGet (dictUpdate d row) k = some v := by
  intro row
  induction row with
  | nil => intro d k v _ h; exact absurd h (List.not_mem_nil _)
  | cons kv rest ih =>
    intro d k v hnd h
    rcases List.mem_cons.mp h with he | he
    · have hkk : kv.1 = k := by rw [← he]
      have hkv : kv.2 = v := by rw [← he]
      have hnotin : ∀ v2, (k, v2) ∉ rest := by
        intro v2 hv2
        have hmem : k ∈ rest.map Prod.fst := by
          have := List.mem_map_of_mem Prod.fst hv2
          simpa using this
        rw [List.map_cons] at hnd
        have hhead := (List.nodup_cons.mp hnd).1
        rw [hkk] at hhead
        exact hhead hmem
      show dictGet (dictUpdate (dictSet d kv.1 kv.2) rest) k = some v
      rw [dictGet_dictUpdate_notin rest _ k hnotin, hkk, hkv]
      exact dictGet_dictSet_self d k v
    · have hnd2 : (rest.map Prod.fst).Nodup := by
        rw [List.map_cons] at hnd
        exact (List.nodup_cons.mp hnd).2
      exact ih (dictSet d kv.1 kv.2) k v hnd2 he

/-- C10: metadata enrichment overwrites, per matching record, exactly
the keys present in the metadata row (including core metric keys) and
keeps all other keys; unmatched records and the whole list under empty
metadata are unchanged. -/
theorem claim10_enrichment (results : List PyDict) (metadata : Metadata)
    (hrow : ∀ kv ∈ metadata, (kv.2.map Prod.fst).Nodup) :
    (metadata = [] → enrich_results_with_metadata results metadata = results) ∧
    (enrich_results_with_metadata results metadata).length = results.length ∧
    ∀ i, i < results.length →
      (metaLookup metadata ((dictGet (results.getD i []) filenameKey).getD (Value.vstr [])) =
          none →
        (enrich_results_with_metadata results metadata).getD i [] = results.getD i []) ∧
      ∀ row,
        metaLookup metadata ((dictGet (results.getD i []) filenameKey).getD (Value.vstr [])) =
          some row →
        (∀ k v, (k, v) ∈ row →
          dictGet ((enrich_results_with_metadata results metadata).getD i []) k = some v) ∧
        (∀ k, (∀ v, (k, v) ∉ row) →
          dictGet ((enrich_results_with_metadata results metadata).getD i []) k =
            dictGet (results.getD i []) k) := by
  by_cases hm : metadata = []
  · have he : enrich_results_with_metadata results metadata = results := by
      rw [enrich_results_with_metadata, if_pos hm]
    refine ⟨fun _ => he, by rw [he], ?_⟩
    intro i _
    refine ⟨fun _ => by rw [he], ?_⟩
    intro row habs
    rw [hm] at habs
    exact absurd habs (by simp [metaLookup])
  · have he : enrich_results_with_metadata results metadata =
        results.map (fun r =>
          match metaLookup metadata ((dictGet r filenameKey).getD (Value.vstr [])) with
          | some row => dictUpdate r row
          | none => r) := by
      rw [enrich_results_with_metadata, if_neg hm]
    have hmap : ∀ i, i < results.length →
        (enrich_results_with_metadata results metadata).getD i [] =
          match metaLookup metadata
              ((dictGet (results.getD i []) filenameKey).getD (Value.vstr [])) with
          | some row => dictUpdate (results.getD i []) row
          | none => results.getD i [] := by
      intro i hi
      rw [he, List.getD_eq_getElem?_getD, List.getElem?_map]
      have hsome : results[i]? = some (results.getD i []) := by
        rw [List.getD_eq_getElem?_getD]
        cases hr : results[i]? with
        | none =>
          exfalso
          rw [List.getElem?_eq_none_iff] at hr
          omega
        | some r => rfl
      rw [hsome]
      rfl
    refine ⟨fun habs => absurd habs hm, by rw [he, List.length_map], ?_⟩
    intro i hi
    constructor
    · intro hnone
      rw [hmap i hi, hnone]
    · intro row hsome
      have hrownd : (row.map Prod.fst).Nodup := by
        have hex : ∃ kv, metadata.find? (fun p => decide (p.1 =
            (dictGet (results.getD i []) filenameKey).getD (Value.vstr []))) = some kv ∧
            kv.2 = row := by
          unfold metaLookup at hsome
          cases hf : metadata.find? (fun p => decide (p.1 =
              (dictGet (results.getD i []) filenameKey).getD (Value.vstr []))) with
          | none => rw [hf] at hsome; exact absurd hsome (by simp)
          | some kv =>
            rw [hf] at hsome
            exact ⟨kv, rfl, by simpa using hsome⟩
        obtain ⟨kv, hfind, hkv⟩ := hex
        rw [← hkv]
        exact hrow kv (List.mem_of_find?_eq_some hfind)
      rw [hmap i hi, hsome]
      exact ⟨fun k v hkv => dictGet_dictUpdate_mem row _ k v hrownd hkv,
        fun k hk => dictGet_dictUpdate_notin row _ k hk⟩

/-- Witness for C10 on a one-record list: the metadata row overwrites
key "x" and adds key "y"; the untouched key keeps its value. -/
theorem claim10_enrichment_witness :
    dictGet ((enrich_results_with_metadata W10res W10meta).getD 0 []) (("x").toList) =
      some (Value.vnum 2) ∧
    dictGet ((enrich_results_with_metadata W10res W10meta).getD 0 []) filenameKey =
      dictGet (W10res.getD 0 []) filenameKey := by
  have h := claim10_enrichment W10res W10meta (by decide)
  have h0 := (h.2.2 0 (by decide)).2
  have hlook : metaLookup W10meta
      ((dictGet (W10res.getD 0 []) filenameKey).getD (Value.vstr [])) =
      some [(("x").toList, Value.vnum 2), (("y").toList, Value.vstr [])] := by decide
  have h1 := h0 _ hlook
  refine ⟨h1.1 (("x").toList) (Value.vnum 2) (by decide), h1.2 filenameKey ?_⟩
  intro v hv
  have : filenameKey = ("x").toList ∨ filenameKey = ("y").toList := by
    rcases List.mem_cons.mp hv with he | he
    · exact Or.inl (congrArg Prod.fst he)
    · rcases List.mem_cons.mp he with he2 | he2
      · exact Or.inr (congrArg Prod.fst he2)
      · exact absurd he2 (List.not_mem_nil _)
  rcases this with he | he <;> revert he <;> decide

/-! ### The code's word-character class versus the spec wording -/

theorem wordChar_eq_spec_or_underscore (c : Char) :
    pyIsWordChar c = (specIsLetterDigit c || c = '_') := by
  unfold pyIsWordChar specIsLetterDigit Char.isAlphanum
  cases c.isAlpha <;> cases c.isDigit <;> cases isCyrillicLetter c <;>
    cases hd : (decide (c = '_')) <;> simp [hd]

/-- C1 is false as stated: the code keeps the underscore (it is in
`\w`), while the spec wording replaces every non-letter, non-digit,
non-whitespace character; on "a_b" they disagree. -/
theorem claim1_counterexample :
    preprocess_text underscoreText ≠ spec_tokenize underscoreText ∧
    preprocess_text underscoreText = [("a_b").toList] ∧
    spec_tokenize underscoreText = [("a").toList, ("b").toList] := by
  refine ⟨?_, by decide, by decide⟩
  decide

/-- C1 (amended): the tokenizer lowercases, replaces every character
that is not a letter, digit, underscore, or whitespace by a single
space, collapses whitespace runs, trims, splits on whitespace; empty
input yields the empty sequence. -/
theorem claim1_amended (text : List Char) :
    preprocess_text text = spec_tokenize_amended text ∧ preprocess_text [] = [] := by
  refine ⟨?_, rfl⟩
  unfold preprocess_text spec_tokenize_amended
  by_cases h : text = []
  · simp [h]
  · simp only [if_neg h]
    have hmap : (text.map pyToLower).map replaceNonWord =
        (text.map pyToLower).map
          (fun c => if ¬ (specIsLetterDigit c || c = '_') ∧ ¬ pyIsSpace c then ' ' else c) := by
      apply List.map_eq_map_iff.mpr
      intro c _
      unfold replaceNonWord
      rw [wordChar_eq_spec_or_underscore]
    rw [hmap]

/-- Witness for C1 (amended) at the underscore input: both sides keep
the token "a_b" whole. -/
theorem claim1_amended_witness :
    preprocess_text underscoreText = spec_tokenize_amended underscoreText ∧
    preprocess_text [] = [] :=
  claim1_amended underscoreText

/-! ### First-occurrence list: nodup and membership -/

theorem firstOccAux_props {α : Type} [DecidableEq α] :
    ∀ (l seen : List α),
      (firstOccAux l seen).Nodup ∧
      (∀ x ∈ firstOccAux l seen, x ∉ seen) ∧
      (∀ x ∈ firstOccAux l seen, x ∈ l) := by
  intro l
  induction l with
  | nil =>
    intro seen
    refine ⟨?_, ?_, ?_⟩ <;> simp [firstOccAux]
  | cons w rest ih =>
    intro seen
    by_cases hw : w ∈ seen
    · have hstep : firstOccAux (w :: rest) seen = firstOccAux rest seen := by
        simp [firstOccAux, hw]
      rw [hstep]
      obtain ⟨h1, h2, h3⟩ := ih seen
      exact ⟨h1, h2, fun x hx => List.mem_cons_of_mem w (h3 x hx)⟩
    · have hstep : firstOccAux (w :: rest) seen = w :: firstOccAux rest (w :: seen) := by
        simp [firstOccAux, hw]
      rw [hstep]
      obtain ⟨h1, h2, h3⟩ := ih (w :: seen)
      refine ⟨List.nodup_cons.mpr ⟨fun hmem => (h2 w hmem) (List.mem_cons_self w seen), h1⟩,
        ?_, ?_⟩
      · intro x hx
        rcases List.mem_cons.mp hx with he | he
        · rw [he]; exact hw
        · intro hxs
          exact (h2 x he) (List.mem_cons_of_mem w hxs)
      · intro x hx
        rcases List.mem_cons.mp hx with he | he
        · rw [he]; exact List.mem_cons_self w rest
        · exact List.mem_cons_of_mem w (h3 x he)

theorem firstOcc_nodup {α : Type} [DecidableEq α] (l : List α) : (firstOcc l).Nodup :=
  (firstOccAux_props l []).1

theorem firstOcc_subset {α : Type} [DecidableEq α] (l : List α) :
    ∀ x ∈ firstOcc l, x ∈ l :=
  (firstOccAux_props l []).2.2

/-! ### Stability of the insertion sort used for `most_common` -/

theorem orderedInsert_pairwise_stable (Q : (List Char × ℕ) → (List Char × ℕ) → Prop)
    (a : List Char × ℕ) :
    ∀ L : List (List Char × ℕ),
      (∀ b ∈ L, a.2 = b.2 → Q a b) →
      L.Pairwise (fun x y => x.2 = y.2 → Q x y) →
      (L.orderedInsert (fun x y => y.2 ≤ x.2) a).Pairwise
        (fun x y => x.2 = y.2 → Q x y) := by
  intro L
  induction L with
  | nil =>
    intro _ _
    simp [List.orderedInsert]
  | cons b L2 ih =>
    intro hQ hP
    rw [List.orderedInsert]
    by_cases hr : b.2 ≤ a.2
    · rw [if_pos hr]
      exact List.Pairwise.cons (fun x hx heq => hQ x hx heq) hP
    · rw [if_neg hr]
      have hP2 := List.pairwise_cons.mp hP
      refine List.Pairwise.cons ?_
        (ih (fun x hx heq => hQ x (List.mem_cons_of_mem b hx) heq) hP2.2)
      intro x hx
      rcases (List.mem_orderedInsert _).mp hx with he | he
      · intro heq
        exfalso
        rw [he] at heq
        exact hr (le_of_eq heq)
      · exact hP2.1 x he

theorem insertionSort_pairwise_stable (Q : (List Char × ℕ) → (List Char × ℕ) → Prop) :
    ∀ l : List (List Char × ℕ),
      l.Pairwise Q →
      (List.insertionSort (fun x y => y.2 ≤ x.2) l).Pairwise
        (fun x y => x.2 = y.2 → Q x y) := by
  intro l
  induction l with
  | nil => intro _; simp
  | cons a l2 ih =>
    intro hP
    have hP2 := List.pairwise_cons.mp hP
    simp only [List.insertionSort]
    apply orderedInsert_pairwise_stable
    · intro b hb heq
      have hbmem : b ∈ l2 :=
        (List.perm_insertionSort (fun x y => y.2 ≤ x.2) l2).mem_iff.mp hb
      exact hP2.1 b hbmem
    · exact ih hP2.2

theorem rankIn_cons_self {α : Type} [DecidableEq α] (a : α) (l : List α) :
    rankIn (a :: l) a = 0 := by
  simp [rankIn]

theorem rankIn_cons_ne {α : Type} [DecidableEq α] {a x : α} (l : List α) (h : a ≠ x) :
    rankIn (a :: l) x = rankIn l x + 1 := by
  simp [rankIn, h]

theorem nodup_pairwise_rankIn {α : Type} [DecidableEq α] :
    ∀ u : List α, u.Nodup → u.Pairwise (fun x y => rankIn u x < rankIn u y) := by
  intro u
  induction u with
  | nil => intro _; simp
  | cons a rest ih =>
    intro hnd
    obtain ⟨hna, hnd2⟩ := List.nodup_cons.mp hnd
    refine List.Pairwise.cons ?_ ?_
    · intro y hy
      rw [rankIn_cons_self]
      have hay : a ≠ y := fun he => hna (by rw [he]; exact hy)
      rw [rankIn_cons_ne rest hay]
      exact Nat.succ_pos _
    · have hrest := ih hnd2
      apply List.Pairwise.imp_of_mem ?_ hrest
      intro x y hx hy hxy
      have hax : a ≠ x := fun he => hna (by rw [he]; exact hx)
      have hay : a ≠ y := fun he => hna (by rw [he]; exact hy)
      rw [rankIn_cons_ne rest hax, rankIn_cons_ne rest hay]
      exact Nat.succ_lt_succ hxy

theorem counterPairs_pairwise_rank (words : List (List Char)) :
    (counterPairs words).Pairwise (fun p q =>
      rankIn (firstOcc words) p.1 < rankIn (firstOcc words) q.1) := by
  unfold counterPairs
  rw [List.pairwise_map]
  exact nodup_pairwise_rankIn (firstOcc words) (firstOcc_nodup words)

theorem counterPairs_mem (words : List (List Char)) {p : List Char × ℕ}
    (h : p ∈ counterPairs words) : p.1 ∈ words ∧ p.2 = words.count p.1 := by
  unfold counterPairs at h
  obtain ⟨w, hw, he⟩ := List.mem_map.mp h
  rw [← he]
  exact ⟨firstOcc_subset words w hw, rfl⟩

/-- C5: `get_most_common_words` returns at most `n` pairs, each pair
carries the token's true frequency, the pairs are sorted by descending
count, and ties are ordered by first-encountered token order. -/
theorem claim5_most_common (text : List Char) (n : ℕ) :
    (get_most_common_words text n).length ≤ n ∧
    (∀ p ∈ get_most_common_words text n,
      p.1 ∈ preprocess_text text ∧ p.2 = (preprocess_text text).count p.1) ∧
    (get_most_common_words text n).Pairwise (fun a b => b.2 ≤ a.2) ∧
    (get_most_common_words text n).Pairwise (fun a b => a.2 = b.2 →
      rankIn (firstOcc (preprocess_text text)) a.1 <
        rankIn (firstOcc (preprocess_text text)) b.1) := by
  simp only [get_most_common_words]
  by_cases h : preprocess_text text = []
  · simp [h]
  · rw [if_neg h]
    have hperm : List.Perm (mostCommonSort (counterPairs (preprocess_text text)))
        (counterPairs (preprocess_text text)) :=
      List.perm_insertionSort _ _
    have hsub : List.Sublist
        ((mostCommonSort (counterPairs (preprocess_text text))).take n)
        (mostCommonSort (counterPairs (preprocess_text text))) :=
      List.take_sublist n _
    refine ⟨List.length_take_le n _, ?_, ?_, ?_⟩
    · intro p hp
      have hmem : p ∈ counterPairs (preprocess_text text) :=
        hperm.mem_iff.mp (hsub.subset hp)
      exact counterPairs_mem _ hmem
    · have hsorted : (mostCommonSort (counterPairs (preprocess_text text))).Sorted
          (fun a b => b.2 ≤ a.2) := by
        haveI : IsTotal (List Char × ℕ) (fun a b => b.2 ≤ a.2) :=
          ⟨fun a b => le_total b.2 a.2⟩
        haveI : IsTrans (List Char × ℕ) (fun a b => b.2 ≤ a.2) :=
          ⟨fun _ _ _ h1 h2 => le_trans h2 h1⟩
        exact List.sorted_insertionSort _ _
      exact hsorted.sublist hsub
    · have hstable := insertionSort_pairwise_stable
        (fun p q => rankIn (firstOcc (preprocess_text text)) p.1 <
          rankIn (firstOcc (preprocess_text text)) q.1)
        (counterPairs (preprocess_text text))
        (counterPairs_pairwise_rank (preprocess_text text))
      exact hstable.sublist hsub

/-- Witness for C5: the scenario text with n = 3 gives the two pairs
("hello", 3) then ("world", 1). -/
theorem claim5_most_common_witness :
    get_most_common_words scenarioText 3 =
      [(("hello").toList, 3), (("world").toList, 1)] ∧
    (get_most_common_words scenarioText 3).length ≤ 3 :=
  ⟨by decide, (claim5_most_common scenarioText 3).1⟩
